import Mathlib

/-!
# Verification of the VedioS video-search service

A shallow embedding, in Lean 4, of the VedioS repository: a FastAPI layer
(`src/main.py`) over a video indexing-and-retrieval core (`VideoSearchTool`).
Times and similarity scores are modelled as rationals, filesystem state as
explicit lists of path strings, and the fallible external collaborators
(transcriber, embedder, media encoder) as explicit outcome parameters.

The HTTP endpoints of `src/main.py` are translated function by function.
The core lives in `video_search_tool.py`, which is not part of the
repository snapshot; where a claim depends on it, the relevant operation is
modelled from the specification, and every such definition carries a doc
comment starting `Modelled from the spec:`.
-/

namespace VedioS

/-! ## Path and string helpers (Python `pathlib` / `str` semantics) -/

/-- Split a character list at every occurrence of `sep`. -/
def splitChar (sep : Char) : List Char → List (List Char)
  | [] => [[]]
  | c :: cs =>
    if c = sep then [] :: splitChar sep cs
    else
      match splitChar sep cs with
      | [] => [[c]]
      | g :: gs => (c :: g) :: gs

/-- `Path(p).name`: the final path component (empty components from repeated
or trailing slashes are dropped, as pathlib normalises them away). -/
def pyName (p : String) : String :=
  String.mk (((splitChar '/' p.data).filter (fun c => c ≠ [])).getLastD [])

/-- Index of the last `'.'` in a list of characters, if any
(Python `str.rfind`). -/
def rfindDot (cs : List Char) : Option Nat :=
  (List.range cs.length).reverse.find? (fun i => cs.getD i ' ' == '.')

/-- `Path(p).suffix`: the extension of the final component, dot included;
empty when the final component has no dot, starts with its only dot, or
ends with the dot (CPython: `0 < i < len(name) - 1`). -/
def pySuffix (p : String) : String :=
  let name := pyName p
  match rfindDot name.data with
  | none => ""
  | some i =>
    if 0 < i ∧ i < name.data.length - 1 then String.mk (name.data.drop i) else ""

/-- `Path(p).stem`: the final component without its suffix. -/
def pyStem (p : String) : String :=
  let name := pyName p
  match rfindDot name.data with
  | none => name
  | some i =>
    if 0 < i ∧ i < name.data.length - 1 then String.mk (name.data.take i) else name

/-- Python `str.lower()` (ASCII case folding suffices for file extensions). -/
def pyLower (s : String) : String := String.mk (s.data.map Char.toLower)

/-- Python `str.strip()`: remove leading and trailing whitespace. -/
def pyStrip (s : String) : String :=
  String.mk (((s.data.dropWhile Char.isWhitespace).reverse.dropWhile
    Char.isWhitespace).reverse)

/-! ## Core data model

Modelled from the spec, §3 DATA MODEL: transcript segments, chunks, index
entries and search results.  Times are seconds as rationals. -/

/-- Modelled from the spec: `TranscriptSegment` — raw transcription output,
ordered by `start_time`, non-overlapping (§3). -/
structure TranscriptSegment where
  text : String
  start_time : ℚ
  end_time : ℚ
  deriving DecidableEq

/-- Modelled from the spec: `Chunk` — one retrievable unit of a video's
transcript (§3). -/
structure Chunk where
  video_path : String
  chunk_index : ℕ
  text : String
  start_time : ℚ
  end_time : ℚ
  deriving DecidableEq

/-- Modelled from the spec: `IndexEntry` — one chunk plus its embedding
vector, owned by the index store (§3). -/
structure IndexEntry where
  chunk : Chunk
  embedding : List ℚ
  deriving DecidableEq

/-- Modelled from the spec: `SearchResult` — the read-only projection of an
index entry plus a query-relative score (§3). -/
structure SearchResult where
  score : ℚ
  text : String
  start_time : ℚ
  end_time : ℚ
  video_path : String
  chunk_index : ℕ
  deriving DecidableEq

/-- Transcript segments are ordered and non-overlapping: one ends before
the next starts (§3). -/
def segLE (a b : TranscriptSegment) : Prop := a.end_time ≤ b.start_time

instance : DecidableRel segLE := fun a b =>
  inferInstanceAs (Decidable (a.end_time ≤ b.start_time))

/-- Chunks of one video are ordered and non-overlapping. -/
def chunkLE (a b : Chunk) : Prop := a.end_time ≤ b.start_time

instance : DecidableRel chunkLE := fun a b =>
  inferInstanceAs (Decidable (a.end_time ≤ b.start_time))

/-! ## Chunker

Modelled from the spec, §4.2: sweep the segments in order, accumulating
them into the current window; close the window when the accumulated span
would exceed `chunk_duration`, starting a new window at the first segment
that did not fit.  A window's chunk has `start_time` of its first segment
and `end_time` of its last (true content bounds, never padded); a segment
longer than `chunk_duration` still becomes a chunk by itself. -/

/-- Modelled from the spec (§4.2): the window sweep.  `window_start` is the
start time of the open window `cur` (always nonempty). -/
def chunkGroupsGo (chunk_duration : ℚ) (window_start : ℚ)
    (cur : List TranscriptSegment) :
    List TranscriptSegment → List (List TranscriptSegment)
  | [] => [cur]
  | s :: rest =>
    if chunk_duration < s.end_time - window_start then
      cur :: chunkGroupsGo chunk_duration s.start_time [s] rest
    else
      chunkGroupsGo chunk_duration window_start (cur ++ [s]) rest

/-- Modelled from the spec (§4.2): group an ordered transcript into chunk
windows; an empty transcript yields zero chunks. -/
def chunkGroups (chunk_duration : ℚ) :
    List TranscriptSegment → List (List TranscriptSegment)
  | [] => []
  | s :: rest => chunkGroupsGo chunk_duration s.start_time [s] rest

def defaultSegment : TranscriptSegment := ⟨"", 0, 0⟩

/-- Modelled from the spec (§3, §4.2): build the chunk of one window —
text is the concatenation of the contained segments, time bounds are the
first segment's start and the last segment's end. -/
def mkChunk (video_path : String) (i : ℕ) (g : List TranscriptSegment) : Chunk :=
  { video_path := video_path
    chunk_index := i
    text := String.intercalate " " (g.map (fun s => s.text))
    start_time := (g.headD defaultSegment).start_time
    end_time := (g.getLastD defaultSegment).end_time }

/-- Number the windows with dense 0-based chunk indices. -/
def mkChunks (video_path : String) : ℕ → List (List TranscriptSegment) → List Chunk
  | _, [] => []
  | i, g :: gs => mkChunk video_path i g :: mkChunks video_path (i + 1) gs

/-- Modelled from the spec (§4.2): the full chunking policy. -/
def chunkTranscript (chunk_duration : ℚ) (video_path : String)
    (segs : List TranscriptSegment) : List Chunk :=
  mkChunks video_path 0 (chunkGroups chunk_duration segs)

/-! ## Ingestion orchestration

Modelled from the spec, §4.7: `Received → Transcribing → Chunking →
Embedding → Indexed`, with `VectorIndex.append` only after all chunks of
the video are embedded.  The transcriber and embedder are fallible
collaborators, passed in as `Except`-valued outcomes. -/

inductive IngestStage where
  | transcribing
  | chunking
  | embedding
  deriving DecidableEq

structure IngestError where
  stage : IngestStage
  message : String
  deriving DecidableEq

structure IngestSummary where
  video_path : String
  num_chunks : ℕ
  chunks : List Chunk
  deriving DecidableEq

/-- Modelled from the spec (§4.3): embed every chunk with non-blank text
(empty chunks are skipped, per §4.3 callers must skip them), producing the
index entries of one video, or the first embedding failure. -/
def embedChunks (embed : String → Except String (List ℚ)) (chunks : List Chunk) :
    Except String (List IndexEntry) :=
  (chunks.filter (fun c => pyStrip c.text ≠ "")).mapM
    (fun c => (embed c.text).map (fun v => IndexEntry.mk c v))

/-- Modelled from the spec (§4.7): ingest one video.  Transcribe, chunk,
embed all chunks, and only then append all entries to the store; any
failure returns the store unchanged together with the failing stage. -/
def index_video (store : List IndexEntry)
    (transcribe : Except String (List TranscriptSegment))
    (embed : String → Except String (List ℚ))
    (video_path : String) (chunk_duration : ℚ) :
    List IndexEntry × Except IngestError IngestSummary :=
  match transcribe with
  | .error e => (store, .error ⟨.transcribing, e⟩)
  | .ok segs =>
    match embedChunks embed (chunkTranscript chunk_duration video_path segs) with
    | .error e => (store, .error ⟨.embedding, e⟩)
    | .ok entries =>
      (store ++ entries,
        .ok ⟨video_path, (chunkTranscript chunk_duration video_path segs).length,
          chunkTranscript chunk_duration video_path segs⟩)

/-! ## VectorIndex search and the query engine

Modelled from the spec, §4.4–§4.5.  The similarity metric (cosine) is
real-valued; since the ranking contract of §4.4 holds for any metric, it is
abstracted as a parameter `sim`, as is the query embedder of §4.3.  Entries
are ranked by descending score, ties broken by lower `chunk_index`, then by
earlier insertion position in the store. -/

/-- An index entry tagged with its insertion position and its score against
the current query. -/
structure Ranked where
  pos : ℕ
  score : ℚ
  entry : IndexEntry
  deriving DecidableEq

/-- Modelled from the spec (§4.4): the ranking order — higher score first,
ties by lower `chunk_index`, then earlier insertion. -/
def rankLEP (a b : Ranked) : Prop :=
  b.score < a.score ∨
    (a.score = b.score ∧
      (a.entry.chunk.chunk_index < b.entry.chunk.chunk_index ∨
        (a.entry.chunk.chunk_index = b.entry.chunk.chunk_index ∧ a.pos ≤ b.pos)))

/-- Strict version of `rankLEP` (insertion positions strictly increase). -/
def rankLTP (a b : Ranked) : Prop :=
  b.score < a.score ∨
    (a.score = b.score ∧
      (a.entry.chunk.chunk_index < b.entry.chunk.chunk_index ∨
        (a.entry.chunk.chunk_index = b.entry.chunk.chunk_index ∧ a.pos < b.pos)))

instance : DecidableRel rankLEP := fun _ _ =>
  inferInstanceAs (Decidable (_ ∨ _))

instance : DecidableRel rankLTP := fun _ _ =>
  inferInstanceAs (Decidable (_ ∨ _))

/-- Boolean comparator for the sort. -/
def rankLE (a b : Ranked) : Bool := decide (rankLEP a b)

/-- Score every stored entry against the query vector, remembering
insertion positions. -/
def scoredEntries (sim : List ℚ → List ℚ → ℚ) (store : List IndexEntry)
    (query_vec : List ℚ) : List Ranked :=
  store.enum.map (fun p => Ranked.mk p.1 (sim query_vec p.2.embedding) p.2)

/-- Modelled from the spec (§4.4): all entries, sorted by the ranking
order. -/
def rankedEntries (sim : List ℚ → List ℚ → ℚ) (store : List IndexEntry)
    (query_vec : List ℚ) : List Ranked :=
  (scoredEntries sim store query_vec).mergeSort rankLE

/-- Project a ranked entry onto the public `SearchResult` shape. -/
def toResult (r : Ranked) : SearchResult :=
  { score := r.score
    text := r.entry.chunk.text
    start_time := r.entry.chunk.start_time
    end_time := r.entry.chunk.end_time
    video_path := r.entry.chunk.video_path
    chunk_index := r.entry.chunk.chunk_index }

/-- Modelled from the spec (§4.4): `VectorIndex.search` — the `top_k` best
entries; `top_k` is clamped to the number of available entries by `take`,
never an error. -/
def vector_search (sim : List ℚ → List ℚ → ℚ) (store : List IndexEntry)
    (query_vec : List ℚ) (top_k : ℕ) : List SearchResult :=
  ((rankedEntries sim store query_vec).take top_k).map toResult

inductive SearchError where
  | emptyQuery
  deriving DecidableEq

/-- Modelled from the spec (§4.5): the query engine — fail with
`EmptyQueryError` on blank/whitespace-only input, otherwise embed the
query and search; an empty index yields an empty result list, not an
error. -/
def search_videos (sim : List ℚ → List ℚ → ℚ) (embedQuery : String → List ℚ)
    (store : List IndexEntry) (query : String) (top_k : ℕ) :
    Except SearchError (List SearchResult) :=
  if pyStrip query = "" then .error .emptyQuery
  else .ok (vector_search sim store (embedQuery query) top_k)

/-! ## The extract-segment endpoint (`main.py`, lines 199–267)

Filesystem state is a pair of lists: existing file paths and existing
directories.  The call into `video_tool.extract_segment` (the external
encoder) is abstracted by a `CoreBehavior` oracle: whether the call raises,
and whether the destination file exists once the call returns (covering a
complete write, a partial write left behind, and nothing written). -/

/-- Abstract filesystem state seen by the endpoints. -/
structure FS where
  files : List String
  dirs : List String
  deriving DecidableEq

def FS.addFile (w : FS) (p : String) : FS :=
  { w with files := p :: w.files }

def FS.removeFile (w : FS) (p : String) : FS :=
  { w with files := w.files.filter (fun q => q ≠ p) }

def FS.mkdir (w : FS) (d : String) : FS :=
  { w with dirs := d :: w.dirs }

/-- Outcome of the external `video_tool.extract_segment` call:
`raises` — the call raised an exception; `leavesFile` — the destination
path holds a (possibly partial) file when the call returns. -/
structure CoreBehavior where
  raises : Bool
  leavesFile : Bool
  deriving DecidableEq

def UPLOAD_DIR : String := "uploaded_videos"

/-- Path resolution of `main.py` lines 218–230: try the given path, then
`uploaded_videos/<path>`, then `uploaded_videos/<basename>`; `none` when
all three are missing. -/
def resolveVideoPath (files : List String) (video_path : String) : Option String :=
  if video_path ∈ files then some video_path
  else if (UPLOAD_DIR ++ "/" ++ video_path) ∈ files then
    some (UPLOAD_DIR ++ "/" ++ video_path)
  else if (UPLOAD_DIR ++ "/" ++ pyName video_path) ∈ files then
    some (UPLOAD_DIR ++ "/" ++ pyName video_path)
  else none

/-- HTTP-level response of an endpoint: a status code and, on success,
the path of the produced artefact. -/
structure Response where
  status : Nat
  output : Option String
  deriving DecidableEq

/-- The `/extract-segment` endpoint of `main.py` (lines 199–267).
Order of effects follows the source: the `start_time >= end_time` check
(line 214) runs first, then path resolution, then `mkdir` of
`extracted_segments` (line 234), then the guarded core call whose `except`
clause removes the destination file before re-raising as HTTP 500
(lines 260–267).  The `HTTPException(500)` raised when the output file is
missing after a successful call (line 242) is itself caught by that same
`except Exception` clause. -/
def extract_segment (w : FS) (core : CoreBehavior) (video_path : String)
    (start_time end_time : ℚ) (output_filename : String) : Response × FS :=
  if start_time ≥ end_time then (⟨400, none⟩, w)
  else
    match resolveVideoPath w.files video_path with
    | none => (⟨404, none⟩, w)
    | some _resolved =>
      let w₁ := w.mkdir "extracted_segments"
      let output_path := "extracted_segments" ++ "/" ++ output_filename
      let w₂ := if core.leavesFile then w₁.addFile output_path
                else w₁.removeFile output_path
      if core.raises then (⟨500, none⟩, w₂.removeFile output_path)
      else if output_path ∈ w₂.files then (⟨200, some output_path⟩, w₂)
      else (⟨500, none⟩, w₂.removeFile output_path)

/-! ## The upload endpoint (`main.py`, lines 47–124) -/

def allowed_extensions : List String :=
  [".mp4", ".avi", ".mov", ".mkv", ".flv", ".wmv"]

/-- 500 MB, `main.py` line 80. -/
def MAX_UPLOAD_SIZE : ℕ := 500 * 1024 * 1024

/-- Decimal digit list backing `Nat.repr`: `[0]` for zero, else
`Nat.digits 10 n` (little-endian).  Used to reason about the counter in
the collision loop below. -/
def decDigits (n : ℕ) : List ℕ := if n = 0 then [0] else Nat.digits 10 n

/-- The candidate filename `f"{stem}_{counter}{ext}"` tried by the
collision loop (`main.py` lines 86–91). -/
def candName (stem ext : String) (k : ℕ) : String :=
  stem ++ "_" ++ Nat.repr k ++ ext

/-- The collision loop of `main.py` lines 86–91, starting at counter `k`:
return the first candidate not already present.  `fuel` bounds the search;
`findFreeName_isSome` shows that fuel `existing.length + 1` always
suffices, so the bound does not restrict the modelled behaviour. -/
def findFreeName (existing : List String) (stem ext : String) :
    ℕ → ℕ → Option String
  | 0, _ => none
  | fuel + 1, k =>
    if candName stem ext k ∈ existing then findFreeName existing stem ext fuel (k + 1)
    else some (candName stem ext k)

/-- `main.py` lines 84–91: the stored filename — the original name when
free, otherwise the first free `f"{stem}_{counter}{file_extension}"` with
the counter starting at 1 (`file_extension` is the lower-cased suffix). -/
def upload_finalFilename (existing : List String) (filename : String) : String :=
  if filename ∈ existing then
    (findFreeName existing (pyStem filename) (pyLower (pySuffix filename))
        (existing.length + 1) 1).getD filename
  else filename

/-- State seen by the upload endpoint: filenames in `uploaded_videos/` and
the process-wide index of the search tool. -/
structure UploadWorld where
  uploadFiles : List String
  index : List IndexEntry
  deriving DecidableEq

/-- A Python exception escaping the `try` body: a raised `HTTPException`
or any other exception. -/
inductive PyExc where
  | http (status : ℕ) (detail : String)
  | error (msg : String)
  deriving DecidableEq

/-- The `try` body of `upload_video` (`main.py` lines 72–116): reject files
over 500 MB by raising `HTTPException(413)`, move the upload to the first
free name in the upload directory, then ingest.  An ingest failure raises
after the move, so the moved file stays.  Returns the stored filename on
success. -/
def upload_video_body (w : UploadWorld) (filename : String) (file_size : ℕ)
    (ingest : Except String (List IndexEntry)) :
    Except PyExc String × UploadWorld :=
  if MAX_UPLOAD_SIZE < file_size then
    (.error (.http 413 "文件过大，最大支持500MB"), w)
  else
    let final := upload_finalFilename w.uploadFiles filename
    let w₁ : UploadWorld := { w with uploadFiles := final :: w.uploadFiles }
    match ingest with
    | .error e => (.error (.error e), w₁)
    | .ok entries => (.ok final, { w₁ with index := w₁.index ++ entries })

/-- Response of the upload endpoint. -/
structure UploadResponse where
  status : ℕ
  storedFilename : Option String
  deriving DecidableEq

/-- The `/upload` endpoint of `main.py` (lines 47–124): the extension check
(lines 61–68) runs before the `try` block; every exception escaping the
body — including the `HTTPException(413)` for oversized files, since
`HTTPException` is a subclass of `Exception` — is caught by the blanket
`except Exception` of line 118 and re-raised as `HTTPException(500)`. -/
def upload_video (w : UploadWorld) (filename : String) (file_size : ℕ)
    (ingest : Except String (List IndexEntry)) : UploadResponse × UploadWorld :=
  if pyLower (pySuffix filename) ∉ allowed_extensions then (⟨400, none⟩, w)
  else
    match upload_video_body w filename file_size ingest with
    | (.ok final, w₁) => (⟨200, some final⟩, w₁)
    | (.error _, w₁) => (⟨500, none⟩, w₁)

end VedioS

namespace VedioS

/-! ## Helper lemmas -/

/-- `FS.removeFile` really removes the path. -/
theorem removeFile_not_mem (w : FS) (p : String) : p ∉ (w.removeFile p).files := by
  intro h
  simp only [FS.removeFile, List.mem_filter, decide_eq_true_eq] at h
  exact h.2 rfl

/-! ### Injectivity of `Nat.repr`, for the filename collision loop -/

theorem ofDigits_decDigits (n : ℕ) : Nat.ofDigits 10 (decDigits n) = n := by
  by_cases h : n = 0
  · simp [decDigits, h, Nat.ofDigits]
  · simp [decDigits, h, Nat.ofDigits_digits]

theorem decDigits_lt (n : ℕ) : ∀ d ∈ decDigits n, d < 10 := by
  intro d hd
  by_cases h : n = 0
  · simp [decDigits, h] at hd; omega
  · exact Nat.digits_lt_base (by norm_num) (by simpa [decDigits, h] using hd)

theorem toDigitsCore_eq (fuel : ℕ) : ∀ (n : ℕ) (acc : List Char), n < fuel →
    Nat.toDigitsCore 10 fuel n acc
      = ((decDigits n).map Nat.digitChar).reverse ++ acc := by
  induction fuel with
  | zero => intro n acc h; omega
  | succ fuel ih =>
    intro n acc h
    rw [Nat.toDigitsCore]
    by_cases h10 : n / 10 = 0
    · simp only [h10, if_pos, if_true]
      by_cases h0 : n = 0
      · subst h0; simp [decDigits]
      · have : Nat.digits 10 n = [n % 10] := by
          rw [Nat.digits_def' (by norm_num : 1 < 10) (Nat.pos_of_ne_zero h0), h10]
          simp
        simp [decDigits, h0, this]
    · have hn0 : n ≠ 0 := by intro h0; subst h0; simp at h10
      have hlt : n / 10 < fuel := by
        have : n / 10 < n := Nat.div_lt_self (Nat.pos_of_ne_zero hn0) (by norm_num)
        omega
      simp only [h10, if_neg, if_false]
      rw [ih (n / 10) _ hlt]
      have hd : decDigits n = n % 10 :: Nat.digits 10 (n / 10) := by
        simp [decDigits, hn0,
          Nat.digits_def' (by norm_num : 1 < 10) (Nat.pos_of_ne_zero hn0)]
      have hd10 : decDigits (n / 10) = Nat.digits 10 (n / 10) := by
        simp [decDigits, h10]
      rw [hd, hd10]
      simp

theorem repr_eq_decDigits (n : ℕ) :
    Nat.repr n = String.mk (((decDigits n).map Nat.digitChar).reverse) := by
  show (Nat.toDigits 10 n).asString = _
  rw [Nat.toDigits, toDigitsCore_eq (n + 1) n [] (Nat.lt_succ_self n)]
  simp [List.asString]

theorem digitChar_inj_lt :
    ∀ a < 10, ∀ b < 10, Nat.digitChar a = Nat.digitChar b → a = b := by
  decide

theorem map_digitChar_inj :
    ∀ (l₁ l₂ : List ℕ), (∀ d ∈ l₁, d < 10) → (∀ d ∈ l₂, d < 10) →
      l₁.map Nat.digitChar = l₂.map Nat.digitChar → l₁ = l₂ := by
  intro l₁
  induction l₁ with
  | nil => intro l₂ _ _ h; cases l₂ <;> simp_all
  | cons a t ih =>
    intro l₂ h₁ h₂ h
    cases l₂ with
    | nil => simp at h
    | cons b t₂ =>
      simp only [List.map_cons, List.cons.injEq] at h
      have ha := digitChar_inj_lt a (h₁ a (by simp)) b (h₂ b (by simp)) h.1
      subst ha
      rw [ih t₂ (fun d hd => h₁ d (by simp [hd])) (fun d hd => h₂ d (by simp [hd])) h.2]

theorem natRepr_injective : Function.Injective Nat.repr := by
  intro m n h
  rw [repr_eq_decDigits, repr_eq_decDigits] at h
  have hdata : ((decDigits m).map Nat.digitChar).reverse
      = ((decDigits n).map Nat.digitChar).reverse := congrArg String.data h
  have hdd := map_digitChar_inj _ _ (decDigits_lt m) (decDigits_lt n)
    (List.reverse_injective hdata)
  calc m = Nat.ofDigits 10 (decDigits m) := (ofDigits_decDigits m).symm
    _ = Nat.ofDigits 10 (decDigits n) := by rw [hdd]
    _ = n := ofDigits_decDigits n

theorem candName_injective (stem ext : String) :
    Function.Injective (candName stem ext) := by
  intro a b h
  apply natRepr_injective
  have hdata := congrArg String.data h
  simp only [candName, String.data_append] at hdata
  exact String.ext (List.append_cancel_left (List.append_cancel_right hdata))

/-! ### The collision loop terminates within its fuel and returns a free name -/

theorem findFreeName_safe (existing : List String) (stem ext : String) :
    ∀ (fuel k : ℕ) (name : String), findFreeName existing stem ext fuel k = some name →
      name ∉ existing ∧ ∃ j, k ≤ j ∧ name = candName stem ext j := by
  intro fuel
  induction fuel with
  | zero => intro k name h; simp [findFreeName] at h
  | succ fuel ih =>
    intro k name h
    rw [findFreeName] at h
    by_cases hm : candName stem ext k ∈ existing
    · rw [if_pos hm] at h
      obtain ⟨h₁, j, hj, hje⟩ := ih (k + 1) name h
      exact ⟨h₁, j, by omega, hje⟩
    · rw [if_neg hm] at h
      obtain rfl := Option.some.inj h
      exact ⟨hm, k, le_refl k, rfl⟩

theorem findFreeName_isSome (existing : List String) (stem ext : String) :
    ∀ (fuel k : ℕ), (∃ j, k ≤ j ∧ j < k + fuel ∧ candName stem ext j ∉ existing) →
      (findFreeName existing stem ext fuel k).isSome := by
  intro fuel
  induction fuel with
  | zero => intro k ⟨j, h₁, h₂, _⟩; omega
  | succ fuel ih =>
    intro k ⟨j, h₁, h₂, h₃⟩
    rw [findFreeName]
    by_cases hm : candName stem ext k ∈ existing
    · rw [if_pos hm]
      refine ih (k + 1) ⟨j, ?_, by omega, h₃⟩
      rcases Nat.eq_or_lt_of_le h₁ with rfl | h
      · exact absurd hm h₃
      · omega
    · rw [if_neg hm]; rfl

theorem exists_free_candidate (existing : List String) (stem ext : String) (k : ℕ) :
    ∃ j, k ≤ j ∧ j < k + (existing.length + 1) ∧ candName stem ext j ∉ existing := by
  by_contra hc
  push_neg at hc
  have hsub : (List.range' k (existing.length + 1)).map (candName stem ext)
      ⊆ existing := by
    intro x hx
    obtain ⟨j, hj, rfl⟩ := List.mem_map.mp hx
    have := List.mem_range'_1.mp hj
    exact hc j this.1 this.2
  have hnd : ((List.range' k (existing.length + 1)).map (candName stem ext)).Nodup :=
    (List.nodup_range' k (existing.length + 1)).map (candName_injective stem ext)
  have := (hnd.subperm hsub).length_le
  simp at this

/-! ### Chunker lemmas -/

theorem chunkGroupsGo_flatten (d : ℚ) :
    ∀ (l : List TranscriptSegment) (ws : ℚ) (cur : List TranscriptSegment),
      (chunkGroupsGo d ws cur l).flatten = cur ++ l := by
  intro l
  induction l with
  | nil => intro ws cur; simp [chunkGroupsGo]
  | cons s rest ih =>
    intro ws cur
    rw [chunkGroupsGo]
    by_cases hc : d < s.end_time - ws
    · rw [if_pos hc]
      simp [ih]
    · rw [if_neg hc, ih]
      simp

theorem chunkGroupsGo_ne_nil (d : ℚ) :
    ∀ (l : List TranscriptSegment) (ws : ℚ) (cur : List TranscriptSegment),
      cur ≠ [] → ∀ g ∈ chunkGroupsGo d ws cur l, g ≠ [] := by
  intro l
  induction l with
  | nil => intro ws cur hcur g hg; simp [chunkGroupsGo] at hg; rwa [hg]
  | cons s rest ih =>
    intro ws cur hcur g hg
    rw [chunkGroupsGo] at hg
    by_cases hc : d < s.end_time - ws
    · rw [if_pos hc] at hg
      rcases List.mem_cons.mp hg with rfl | hg'
      · exact hcur
      · exact ih s.start_time [s] (by simp) g hg'
    · rw [if_neg hc] at hg
      exact ih ws (cur ++ [s]) (by simp) g hg

theorem chunkGroups_flatten (d : ℚ) (segs : List TranscriptSegment) :
    (chunkGroups d segs).flatten = segs := by
  cases segs with
  | nil => simp [chunkGroups]
  | cons s rest => rw [chunkGroups, chunkGroupsGo_flatten]; simp

theorem chunkGroups_ne_nil (d : ℚ) (segs : List TranscriptSegment) :
    ∀ g ∈ chunkGroups d segs, g ≠ [] := by
  cases segs with
  | nil => simp [chunkGroups]
  | cons s rest =>
    rw [chunkGroups]
    exact chunkGroupsGo_ne_nil d rest s.start_time [s] (by simp)

theorem headD_mem {α : Type} : ∀ (l : List α) (dflt : α), l ≠ [] → l.headD dflt ∈ l := by
  intro l dflt h
  cases l with
  | nil => exact absurd rfl h
  | cons a t => simp

theorem getLastD_mem {α : Type} : ∀ (l : List α) (dflt : α), l ≠ [] → l.getLastD dflt ∈ l := by
  intro l
  induction l with
  | nil => intro dflt h; exact absurd rfl h
  | cons a t ih =>
    intro dflt _
    cases t with
    | nil => simp
    | cons b u =>
      rw [List.getLastD_cons]
      exact List.mem_cons_of_mem a (ih a (by simp))

theorem mkChunks_mem (vp : String) :
    ∀ (gs : List (List TranscriptSegment)) (i : ℕ) (c : Chunk),
      c ∈ mkChunks vp i gs → ∃ j g, g ∈ gs ∧ c = mkChunk vp j g := by
  intro gs
  induction gs with
  | nil => intro i c hc; simp [mkChunks] at hc
  | cons g gs ih =>
    intro i c hc
    rw [mkChunks] at hc
    rcases List.mem_cons.mp hc with rfl | hc'
    · exact ⟨i, g, by simp, rfl⟩
    · obtain ⟨j, g', hg', rfl⟩ := ih (i + 1) c hc'
      exact ⟨j, g', by simp [hg'], rfl⟩

theorem mkChunks_chunk_index (vp : String) :
    ∀ (gs : List (List TranscriptSegment)) (i k : ℕ)
      (h : k < (mkChunks vp i gs).length),
      ((mkChunks vp i gs).get ⟨k, h⟩).chunk_index = i + k := by
  intro gs
  induction gs with
  | nil => intro i k h; simp [mkChunks] at h
  | cons g gs ih =>
    intro i k h
    cases k with
    | zero => simp [mkChunks, mkChunk]
    | succ k =>
      simp only [mkChunks, List.length_cons, List.get_cons_succ] at h ⊢
      rw [ih (i + 1) k]
      omega

theorem mkChunks_pairwise (vp : String) :
    ∀ (gs : List (List TranscriptSegment)) (i : ℕ),
      gs.Pairwise (fun g h =>
        (g.getLastD defaultSegment).end_time ≤ (h.headD defaultSegment).start_time) →
      (mkChunks vp i gs).Pairwise chunkLE := by
  intro gs
  induction gs with
  | nil => intro i _; simp [mkChunks]
  | cons g gs ih =>
    intro i hp
    rw [mkChunks]
    rcases List.pairwise_cons.mp hp with ⟨hg, htail⟩
    refine List.Pairwise.cons ?_ (ih (i + 1) htail)
    intro c hc
    obtain ⟨j, g', hg', rfl⟩ := mkChunks_mem vp gs (i + 1) c hc
    exact hg g' hg'

theorem group_start_lt_end :
    ∀ (g : List TranscriptSegment), g ≠ [] → g.Pairwise segLE →
      (∀ s ∈ g, s.start_time < s.end_time) →
      (g.headD defaultSegment).start_time < (g.getLastD defaultSegment).end_time := by
  intro g hne hp hpos
  cases g with
  | nil => exact absurd rfl hne
  | cons s t =>
    cases t with
    | nil => simpa using hpos s (by simp)
    | cons u v =>
      rw [List.getLastD_cons]
      have hlast : (u :: v).getLastD s ∈ u :: v := getLastD_mem (u :: v) s (by simp)
      have h₁ : segLE s ((u :: v).getLastD s) :=
        (List.pairwise_cons.mp hp).1 _ hlast
      have h₂ := hpos s (by simp)
      have h₃ := hpos _ (List.mem_cons_of_mem s hlast)
      simp only [List.headD_cons]
      calc s.start_time < s.end_time := h₂
        _ ≤ ((u :: v).getLastD s).start_time := h₁
        _ < ((u :: v).getLastD s).end_time := h₃

theorem sum_durations_le :
    ∀ (cs : List Chunk) (lo hi : ℚ),
      (∀ c ∈ cs, lo ≤ c.start_time ∧ c.end_time ≤ hi) →
      (∀ c ∈ cs, c.start_time ≤ c.end_time) →
      cs.Pairwise chunkLE → lo ≤ hi →
      (cs.map (fun c => c.end_time - c.start_time)).sum ≤ hi - lo := by
  intro cs
  induction cs with
  | nil => intro lo hi _ _ _ hlh; simpa using by linarith
  | cons c cs ih =>
    intro lo hi hbounds hwd hp hlh
    rcases List.pairwise_cons.mp hp with ⟨hc, htail⟩
    have hchi : c.end_time ≤ hi := (hbounds c (by simp)).2
    have hrest : (cs.map (fun x => x.end_time - x.start_time)).sum ≤ hi - c.end_time := by
      refine ih c.end_time hi ?_ ?_ htail hchi
      · intro x hx
        exact ⟨hc x hx, (hbounds x (List.mem_cons_of_mem c hx)).2⟩
      · intro x hx
        exact hwd x (List.mem_cons_of_mem c hx)
    have hclo : lo ≤ c.start_time := (hbounds c (by simp)).1
    simp only [List.map_cons, List.sum_cons]
    linarith

/-! ### Ranking-order lemmas -/

theorem rankLEP_trans (a b c : Ranked) (h₁ : rankLEP a b) (h₂ : rankLEP b c) :
    rankLEP a c := by
  rcases h₁ with h₁ | ⟨e₁, h₁⟩ <;> rcases h₂ with h₂ | ⟨e₂, h₂⟩
  · exact Or.inl (lt_trans h₂ h₁)
  · exact Or.inl (e₂ ▸ h₁)
  · exact Or.inl (by rw [e₁]; exact h₂)
  · refine Or.inr ⟨e₁.trans e₂, ?_⟩
    rcases h₁ with h₁ | ⟨f₁, h₁⟩ <;> rcases h₂ with h₂ | ⟨f₂, h₂⟩ <;> omega

theorem rankLEP_total (a b : Ranked) : rankLEP a b ∨ rankLEP b a := by
  rcases lt_trichotomy a.score b.score with h | h | h
  · exact Or.inr (Or.inl h)
  · rcases Nat.lt_trichotomy a.entry.chunk.chunk_index b.entry.chunk.chunk_index
      with hi | hi | hi
    · exact Or.inl (Or.inr ⟨h, Or.inl hi⟩)
    · rcases Nat.le_total a.pos b.pos with hp | hp
      · exact Or.inl (Or.inr ⟨h, Or.inr ⟨hi, hp⟩⟩)
      · exact Or.inr (Or.inr ⟨h.symm, Or.inr ⟨hi.symm, hp⟩⟩)
    · exact Or.inr (Or.inr ⟨h.symm, Or.inl hi⟩)
  · exact Or.inl (Or.inl h)

theorem rankLEP_pos_ne_lt (a b : Ranked) (h : rankLEP a b) (hne : a.pos ≠ b.pos) :
    rankLTP a b := by
  rcases h with h | ⟨e, h⟩
  · exact Or.inl h
  · refine Or.inr ⟨e, ?_⟩
    rcases h with h | ⟨f, h⟩
    · exact Or.inl h
    · exact Or.inr ⟨f, by omega⟩

theorem rankLEP_antisymm_pos (a b : Ranked) (h₁ : rankLEP a b) (h₂ : rankLEP b a)
    (h₃ : a.pos ≠ b.pos) : False := by
  rcases h₁ with h₁ | ⟨e₁, h₁⟩ <;> rcases h₂ with h₂ | ⟨e₂, h₂⟩
  · exact absurd h₁ (lt_asymm h₂)
  · exact absurd h₁ (by rw [e₂]; exact lt_irrefl _)
  · exact absurd h₂ (by rw [e₁]; exact lt_irrefl _)
  · rcases h₁ with h₁ | ⟨f₁, h₁⟩ <;> rcases h₂ with h₂ | ⟨f₂, h₂⟩ <;> omega

theorem rankedEntries_sorted (sim : List ℚ → List ℚ → ℚ) (store : List IndexEntry)
    (query_vec : List ℚ) : (rankedEntries sim store query_vec).Pairwise rankLEP := by
  have h : (rankedEntries sim store query_vec).Pairwise (fun a b => rankLE a b) :=
    List.sorted_mergeSort
      (fun a b c hab hbc =>
        decide_eq_true (rankLEP_trans a b c (of_decide_eq_true hab) (of_decide_eq_true hbc)))
      (fun a b => by
        rcases rankLEP_total a b with h | h
        · simp [rankLE, h]
        · simp [rankLE, h])
      (scoredEntries sim store query_vec)
  exact h.imp (fun hab => of_decide_eq_true hab)

theorem scoredEntries_pos_lt (sim : List ℚ → List ℚ → ℚ) (store : List IndexEntry)
    (query_vec : List ℚ) :
    (scoredEntries sim store query_vec).Pairwise (fun a b => a.pos < b.pos) := by
  unfold scoredEntries
  rw [List.pairwise_map]
  have h₁ : (store.enum.map Prod.fst).Pairwise (fun a b => a < b) := by
    rw [List.enum_map_fst]
    exact List.pairwise_lt_range _
  rwa [List.pairwise_map] at h₁

theorem rankedEntries_pos_ne (sim : List ℚ → List ℚ → ℚ) (store : List IndexEntry)
    (query_vec : List ℚ) :
    (rankedEntries sim store query_vec).Pairwise (fun a b => a.pos ≠ b.pos) := by
  have hperm : (rankedEntries sim store query_vec).Perm (scoredEntries sim store query_vec) :=
    List.mergeSort_perm _ _
  have h := (scoredEntries_pos_lt sim store query_vec).imp
    (fun h => Nat.ne_of_lt h)
  exact (hperm.pairwise_iff (fun h => Ne.symm h)).mpr h

theorem rankedEntries_strict_sorted (sim : List ℚ → List ℚ → ℚ)
    (store : List IndexEntry) (query_vec : List ℚ) :
    (rankedEntries sim store query_vec).Pairwise rankLTP :=
  ((rankedEntries_sorted sim store query_vec).and
    (rankedEntries_pos_ne sim store query_vec)).imp
    (fun h => rankLEP_pos_ne_lt _ _ h.1 h.2)

/-- Two orderings of the same entries that both respect the ranking
contract coincide: the ranking determines the output uniquely. -/
theorem sorted_ranking_unique :
    ∀ (r : List Ranked), r.Pairwise rankLEP → r.Pairwise (fun a b => a.pos ≠ b.pos) →
      ∀ (l : List Ranked), l.Perm r → l.Pairwise rankLEP → l = r := by
  intro r
  induction r with
  | nil =>
    intro _ _ l hp _
    exact hp.eq_nil
  | cons a r ih =>
    intro hr hrne l hp hl
    cases l with
    | nil => exact absurd (hp.symm.eq_nil) (by simp)
    | cons b l =>
      rcases List.pairwise_cons.mp hr with ⟨hra, hr'⟩
      rcases List.pairwise_cons.mp hrne with ⟨hrnea, hrne'⟩
      rcases List.pairwise_cons.mp hl with ⟨hlb, hl'⟩
      by_cases hba : b = a
      · subst hba
        rw [ih hr' hrne' l hp.cons_inv hl']
      · have hbr : b ∈ r := by
          rcases List.mem_cons.mp (hp.subset (List.mem_cons_self b l)) with h | h
          · exact absurd h hba
          · exact h
        have har : a ∈ l := by
          rcases List.mem_cons.mp (hp.symm.subset (List.mem_cons_self a r)) with h | h
          · exact absurd h.symm hba
          · exact h
        exact (rankLEP_antisymm_pos a b (hra b hbr) (hlb a har) (hrnea b hbr)).elim

end VedioS

namespace VedioS

/-! ## Claim theorems -/

/-- C1: for every ingested video (its transcript being ordered,
non-overlapping, with non-degenerate segments lying inside
`[0, duration]`), the produced chunks partition the transcript in order
(contiguity), carry dense 0-based chunk indices, each satisfies
`start_time < end_time`, they are pairwise non-overlapping and ordered,
and the sum of their durations is at most the video's duration. -/
theorem chunker_invariants (chunk_duration duration : ℚ) (video_path : String)
    (segs : List TranscriptSegment)
    (hord : segs.Pairwise segLE)
    (hpos : ∀ s ∈ segs, s.start_time < s.end_time)
    (hlo : ∀ s ∈ segs, 0 ≤ s.start_time)
    (hhi : ∀ s ∈ segs, s.end_time ≤ duration)
    (hdur : 0 ≤ duration) :
    (chunkGroups chunk_duration segs).flatten = segs ∧
    (∀ (k : ℕ) (h : k < (chunkTranscript chunk_duration video_path segs).length),
      ((chunkTranscript chunk_duration video_path segs).get ⟨k, h⟩).chunk_index = k) ∧
    (∀ c ∈ chunkTranscript chunk_duration video_path segs,
      c.start_time < c.end_time) ∧
    (chunkTranscript chunk_duration video_path segs).Pairwise chunkLE ∧
    ((chunkTranscript chunk_duration video_path segs).map
      (fun c => c.end_time - c.start_time)).sum ≤ duration := by
  have hflat := chunkGroups_flatten chunk_duration segs
  have hne := chunkGroups_ne_nil chunk_duration segs
  have hpw : ((chunkGroups chunk_duration segs).flatten).Pairwise segLE := by
    rwa [hflat]
  rcases List.pairwise_flatten.mp hpw with ⟨hin, hcross⟩
  have hmem_seg : ∀ g ∈ chunkGroups chunk_duration segs, ∀ s ∈ g, s ∈ segs := by
    intro g hg s hs
    rw [← hflat]
    exact List.mem_flatten.mpr ⟨g, hg, hs⟩
  have hstartlt : ∀ c ∈ chunkTranscript chunk_duration video_path segs,
      c.start_time < c.end_time := by
    intro c hc
    obtain ⟨j, g, hg, rfl⟩ := mkChunks_mem video_path _ 0 c hc
    exact group_start_lt_end g (hne g hg) (hin g hg)
      (fun s hs => hpos s (hmem_seg g hg s hs))
  have hpairwise : (chunkTranscript chunk_duration video_path segs).Pairwise chunkLE := by
    refine mkChunks_pairwise video_path _ 0 ?_
    refine hcross.imp_of_mem ?_
    intro g h hg hh hr
    exact hr _ (getLastD_mem g defaultSegment (hne g hg))
      _ (headD_mem h defaultSegment (hne h hh))
  refine ⟨hflat, ?_, hstartlt, hpairwise, ?_⟩
  · intro k h
    have := mkChunks_chunk_index video_path (chunkGroups chunk_duration segs) 0 k h
    simpa using this
  · have hb : ∀ c ∈ chunkTranscript chunk_duration video_path segs,
        (0 : ℚ) ≤ c.start_time ∧ c.end_time ≤ duration := by
      intro c hc
      obtain ⟨j, g, hg, rfl⟩ := mkChunks_mem video_path _ 0 c hc
      exact ⟨hlo _ (hmem_seg g hg _ (headD_mem g defaultSegment (hne g hg))),
        hhi _ (hmem_seg g hg _ (getLastD_mem g defaultSegment (hne g hg)))⟩
    have hsum := sum_durations_le _ 0 duration hb
      (fun c hc => le_of_lt (hstartlt c hc)) hpairwise hdur
    simpa using hsum

/-- Witness for C1 at a concrete transcript of two segments. -/
theorem chunker_invariants_witness :
    ([⟨"hello", 0, 2⟩, ⟨"world", 3, 5⟩] :
        List TranscriptSegment).Pairwise segLE ∧
    (chunkGroups 30 [⟨"hello", 0, 2⟩, ⟨"world", 3, 5⟩]).flatten
      = [⟨"hello", 0, 2⟩, ⟨"world", 3, 5⟩] ∧
    (chunkTranscript 30 "v.mp4" [⟨"hello", 0, 2⟩, ⟨"world", 3, 5⟩]).Pairwise chunkLE ∧
    ((chunkTranscript 30 "v.mp4" [⟨"hello", 0, 2⟩, ⟨"world", 3, 5⟩]).map
      (fun c => c.end_time - c.start_time)).sum ≤ 10 := by
  have h := chunker_invariants 30 10 "v.mp4" [⟨"hello", 0, 2⟩, ⟨"world", 3, 5⟩]
    (by decide) (by decide) (by decide) (by decide) (by norm_num)
  exact ⟨by decide, h.1, h.2.2.2.1, h.2.2.2.2⟩

/-- C2: an ingest call that fails at any stage leaves the index exactly as
it was before the call — `VectorIndex.append` happens only after all
chunks of the video are embedded. -/
theorem ingest_failure_leaves_index (store : List IndexEntry)
    (transcribe : Except String (List TranscriptSegment))
    (embed : String → Except String (List ℚ))
    (video_path : String) (chunk_duration : ℚ) (e : IngestError)
    (h : (index_video store transcribe embed video_path chunk_duration).2 = .error e) :
    (index_video store transcribe embed video_path chunk_duration).1 = store := by
  cases transcribe with
  | error msg => rfl
  | ok segs =>
    rcases hm : embedChunks embed (chunkTranscript chunk_duration video_path segs)
      with msg | entries
    · simp [index_video, hm]
    · simp [index_video, hm] at h

/-- Witness for C2: a failing transcription leaves the one-entry index
unchanged. -/
theorem ingest_failure_leaves_index_witness :
    (index_video [⟨⟨"v", 0, "t", 0, 1⟩, [1]⟩] (.error "no audio")
        (fun _ => .ok [1]) "w.mp4" 30).2
      = .error ⟨.transcribing, "no audio"⟩ ∧
    (index_video [⟨⟨"v", 0, "t", 0, 1⟩, [1]⟩] (.error "no audio")
        (fun _ => .ok [1]) "w.mp4" 30).1
      = [⟨⟨"v", 0, "t", 0, 1⟩, [1]⟩] :=
  ⟨rfl, ingest_failure_leaves_index _ _ _ _ _ ⟨.transcribing, "no audio"⟩ rfl⟩

/-- C3: search output is sorted strictly by the ranking order — descending
score, ties broken by lower `chunk_index`, then earlier insertion — and
that order determines the output uniquely: any ordering of the same
entries respecting the ranking contract is identical, so two calls with
the same query against the same index state return identical ordered
output. -/
theorem search_sorted_deterministic (sim : List ℚ → List ℚ → ℚ)
    (store : List IndexEntry) (query_vec : List ℚ) (top_k : ℕ) :
    (rankedEntries sim store query_vec).Pairwise rankLTP ∧
    vector_search sim store query_vec top_k
      = ((rankedEntries sim store query_vec).take top_k).map toResult ∧
    ∀ (l : List Ranked), l.Perm (rankedEntries sim store query_vec) →
      l.Pairwise rankLEP → l = rankedEntries sim store query_vec :=
  ⟨rankedEntries_strict_sorted sim store query_vec, rfl,
    sorted_ranking_unique _ (rankedEntries_sorted sim store query_vec)
      (rankedEntries_pos_ne sim store query_vec)⟩

/-- Witness for C3 at a concrete two-entry index. -/
theorem search_sorted_deterministic_witness :
    (rankedEntries (fun _ _ => 0)
        [⟨⟨"v", 0, "s", 0, 1⟩, [1]⟩, ⟨⟨"v", 1, "t", 1, 2⟩, [2]⟩] [1]).Pairwise rankLTP :=
  (search_sorted_deterministic (fun _ _ => 0)
    [⟨⟨"v", 0, "s", 0, 1⟩, [1]⟩, ⟨⟨"v", 1, "t", 1, 2⟩, [2]⟩] [1] 5).1

/-- C4: a `top_k` larger than the index returns every indexed entry — the
truncation is a no-op, the output length is the index size, and the output
is a permutation of all scored entries — rather than an error. -/
theorem search_topk_clamped (sim : List ℚ → List ℚ → ℚ) (store : List IndexEntry)
    (query_vec : List ℚ) (top_k : ℕ) (h : store.length < top_k) :
    vector_search sim store query_vec top_k
      = (rankedEntries sim store query_vec).map toResult ∧
    (vector_search sim store query_vec top_k).length = store.length ∧
    (vector_search sim store query_vec top_k).Perm
      ((scoredEntries sim store query_vec).map toResult) := by
  have hlen : (rankedEntries sim store query_vec).length = store.length := by
    simp [rankedEntries, scoredEntries]
  have htake : (rankedEntries sim store query_vec).take top_k
      = rankedEntries sim store query_vec :=
    List.take_of_length_le (by omega)
  refine ⟨by rw [vector_search, htake], ?_, ?_⟩
  · rw [vector_search, htake]
    simp [hlen]
  · rw [vector_search, htake]
    exact (List.mergeSort_perm _ _).map toResult

/-- Witness for C4: a one-entry index searched with `top_k = 5`. -/
theorem search_topk_clamped_witness :
    ([⟨⟨"v", 0, "t", 0, 1⟩, [1]⟩] : List IndexEntry).length < 5 ∧
      (vector_search (fun _ _ => 0) [⟨⟨"v", 0, "t", 0, 1⟩, [1]⟩] [1] 5).length
        = ([⟨⟨"v", 0, "t", 0, 1⟩, [1]⟩] : List IndexEntry).length :=
  ⟨by decide,
    (search_topk_clamped (fun _ _ => 0) [⟨⟨"v", 0, "t", 0, 1⟩, [1]⟩] [1] 5
      (by decide)).2.1⟩

/-- C5: a blank or whitespace-only query fails with `EmptyQueryError`,
while a non-blank query against an empty index returns an empty result
list, not an error. -/
theorem search_videos_blank_and_empty (sim : List ℚ → List ℚ → ℚ)
    (embedQuery : String → List ℚ) (store : List IndexEntry)
    (query : String) (top_k : ℕ) :
    (pyStrip query = "" →
      search_videos sim embedQuery store query top_k = .error .emptyQuery) ∧
    (pyStrip query ≠ "" → store = [] →
      search_videos sim embedQuery store query top_k = .ok []) := by
  constructor
  · intro h
    simp [search_videos, h]
  · intro h hs
    subst hs
    simp [search_videos, h, vector_search, rankedEntries, scoredEntries]

/-- Witness for C5: the whitespace-only query `" "` errors, the query
`"hi"` against the empty index returns the empty list. -/
theorem search_videos_blank_and_empty_witness :
    search_videos (fun _ _ => 0) (fun _ => []) [] " " 5 = .error .emptyQuery ∧
    search_videos (fun _ _ => 0) (fun _ => []) [] "hi" 5 = .ok [] :=
  ⟨(search_videos_blank_and_empty (fun _ _ => 0) (fun _ => []) [] " " 5).1 (by decide),
   (search_videos_blank_and_empty (fun _ _ => 0) (fun _ => []) [] "hi" 5).2
     (by decide) rfl⟩

/-- C6: a call with `start_time ≥ end_time` fails with status 400 (the
`InvalidInput` kind) and the filesystem is untouched: no file or directory
is created or modified. -/
theorem extract_segment_invalid_range (w : FS) (core : CoreBehavior)
    (video_path : String) (start_time end_time : ℚ) (output_filename : String)
    (h : start_time ≥ end_time) :
    extract_segment w core video_path start_time end_time output_filename
      = (⟨400, none⟩, w) := by
  simp [extract_segment, h]

/-- Witness for C6 at a concrete input. -/
theorem extract_segment_invalid_range_witness :
    (5 : ℚ) ≥ 5 ∧
      extract_segment ⟨["uploaded_videos/a.mp4"], []⟩ ⟨true, true⟩ "a.mp4" 5 5 "o.mp4"
        = (⟨400, none⟩, ⟨["uploaded_videos/a.mp4"], []⟩) :=
  ⟨le_refl 5, extract_segment_invalid_range _ _ _ _ _ _ (le_refl 5)⟩

/-- C7: once validation and path resolution have passed, every failing call
(status ≠ 200: encoder raised, or the output file is missing afterwards)
leaves no file at the destination path. -/
theorem extract_segment_failure_no_destination (w : FS) (core : CoreBehavior)
    (video_path : String) (start_time end_time : ℚ) (output_filename : String)
    (hval : start_time < end_time)
    (hres : (resolveVideoPath w.files video_path).isSome) :
    let r := extract_segment w core video_path start_time end_time output_filename
    r.1.status ≠ 200 → ("extracted_segments" ++ "/" ++ output_filename) ∉ r.2.files := by
  intro r hfail
  have hlt : ¬ start_time ≥ end_time := not_le.mpr hval
  match hr : resolveVideoPath w.files video_path with
  | none => rw [hr] at hres; simp at hres
  | some q =>
    simp only [r, extract_segment, if_neg hlt, hr] at hfail ⊢
    rcases core with ⟨raises, leaves⟩
    cases raises <;> cases leaves <;>
      simp_all [removeFile_not_mem, FS.addFile, FS.mkdir, FS.removeFile,
        List.mem_filter]

/-- Witness for C7 at a concrete input: the encoder raises after a partial
write, and the destination is removed. -/
theorem extract_segment_failure_no_destination_witness :
    (1 : ℚ) < 2 ∧
      (resolveVideoPath (FS.files ⟨["uploaded_videos/a.mp4"], []⟩) "a.mp4").isSome ∧
      (let r := extract_segment ⟨["uploaded_videos/a.mp4"], []⟩ ⟨true, true⟩
          "a.mp4" 1 2 "o.mp4"
       r.1.status ≠ 200 → ("extracted_segments" ++ "/" ++ "o.mp4") ∉ r.2.files) :=
  ⟨by norm_num, by decide,
    extract_segment_failure_no_destination ⟨["uploaded_videos/a.mp4"], []⟩ ⟨true, true⟩
      "a.mp4" 1 2 "o.mp4" (by norm_num) (by decide)⟩

/-- C10: resolution order of the `/extract-segment` video path, and the
endpoint 404s exactly when all three candidates are missing (given a valid
time range). -/
theorem extract_segment_path_resolution (w : FS) (core : CoreBehavior)
    (video_path : String) (start_time end_time : ℚ) (output_filename : String)
    (hval : start_time < end_time) :
    (video_path ∈ w.files → resolveVideoPath w.files video_path = some video_path) ∧
    (video_path ∉ w.files → (UPLOAD_DIR ++ "/" ++ video_path) ∈ w.files →
      resolveVideoPath w.files video_path = some (UPLOAD_DIR ++ "/" ++ video_path)) ∧
    (video_path ∉ w.files → (UPLOAD_DIR ++ "/" ++ video_path) ∉ w.files →
      (UPLOAD_DIR ++ "/" ++ pyName video_path) ∈ w.files →
      resolveVideoPath w.files video_path
        = some (UPLOAD_DIR ++ "/" ++ pyName video_path)) ∧
    ((extract_segment w core video_path start_time end_time output_filename).1.status = 404
      ↔ video_path ∉ w.files ∧ (UPLOAD_DIR ++ "/" ++ video_path) ∉ w.files ∧
        (UPLOAD_DIR ++ "/" ++ pyName video_path) ∉ w.files) := by
  have hlt : ¬ start_time ≥ end_time := not_le.mpr hval
  refine ⟨fun h₁ => by simp [resolveVideoPath, h₁],
          fun h₁ h₂ => by simp [resolveVideoPath, h₁, h₂],
          fun h₁ h₂ h₃ => by simp [resolveVideoPath, h₁, h₂, h₃], ?_⟩
  constructor
  · intro h404
    by_contra hc
    simp only [extract_segment, if_neg hlt] at h404
    match hr : resolveVideoPath w.files video_path with
    | none =>
      unfold resolveVideoPath at hr
      by_cases h₁ : video_path ∈ w.files
      · simp [h₁] at hr
      · by_cases h₂ : (UPLOAD_DIR ++ "/" ++ video_path) ∈ w.files
        · simp [h₁, h₂] at hr
        · by_cases h₃ : (UPLOAD_DIR ++ "/" ++ pyName video_path) ∈ w.files
          · simp [h₁, h₂, h₃] at hr
          · exact hc ⟨h₁, h₂, h₃⟩
    | some q =>
      rw [hr] at h404
      refine absurd h404 ?_
      rcases core with ⟨raises, leaves⟩
      cases raises <;> cases leaves <;> simp only <;> (repeat' split) <;> simp
  · rintro ⟨h₁, h₂, h₃⟩
    simp [extract_segment, if_neg hlt, resolveVideoPath, h₁, h₂, h₃]

/-- Witness for C10 at a concrete input: only the basename candidate
exists, and the path resolves to it. -/
theorem extract_segment_path_resolution_witness :
    (1 : ℚ) < 2 ∧
      (resolveVideoPath ["uploaded_videos/a.mp4"] "videos/a.mp4"
        = some ("uploaded_videos" ++ "/" ++ pyName "videos/a.mp4")) :=
  ⟨by norm_num,
    (extract_segment_path_resolution ⟨["uploaded_videos/a.mp4"], []⟩ ⟨false, true⟩
      "videos/a.mp4" 1 2 "o.mp4" (by norm_num)).2.2.1
      (by decide) (by decide) (by decide)⟩

/-- C9: the stored filename never collides with an existing file in the
upload directory — so no existing file is overwritten by the move — and
on a collision it has the form `stem_counter` with the lower-cased
extension and a counter of at least 1. -/
theorem upload_no_overwrite (existing : List String) (filename : String) :
    upload_finalFilename existing filename ∉ existing ∧
    (filename ∈ existing → ∃ k, 1 ≤ k ∧
      upload_finalFilename existing filename
        = pyStem filename ++ "_" ++ Nat.repr k ++ pyLower (pySuffix filename)) := by
  by_cases hmem : filename ∈ existing
  · have hsome := findFreeName_isSome existing (pyStem filename)
      (pyLower (pySuffix filename)) (existing.length + 1) 1
      (exists_free_candidate existing _ _ 1)
    obtain ⟨name, hname⟩ := Option.isSome_iff_exists.mp hsome
    have heq : upload_finalFilename existing filename = name := by
      simp [upload_finalFilename, hmem, hname]
    obtain ⟨hfree, j, hj, hform⟩ := findFreeName_safe existing _ _ _ _ _ hname
    refine ⟨heq ▸ hfree, fun _ => ⟨j, hj, ?_⟩⟩
    rw [heq, hform]; rfl
  · exact ⟨by simp only [upload_finalFilename, if_neg hmem]; exact hmem,
      fun h => absurd h hmem⟩

/-- Witness for C9: uploading `a.mp4` over an existing `a.mp4` stores
`a_1.mp4`, which is not among the existing files. -/
theorem upload_no_overwrite_witness :
    upload_finalFilename ["a.mp4"] "a.mp4" ∉ ["a.mp4"] ∧
      (∃ k, 1 ≤ k ∧ upload_finalFilename ["a.mp4"] "a.mp4"
        = pyStem "a.mp4" ++ "_" ++ Nat.repr k ++ pyLower (pySuffix "a.mp4")) :=
  ⟨(upload_no_overwrite ["a.mp4"] "a.mp4").1,
    (upload_no_overwrite ["a.mp4"] "a.mp4").2 (by decide)⟩

/-- C8 (code bug): an upload of a valid `.mp4` file one byte over the
500 MB limit is rejected and not ingested — the index and the upload
directory are unchanged — but the response is HTTP 500, not the
payload-too-large 413: the `HTTPException(413)` raised at line 81 is a
subclass of `Exception`, so the blanket handler at line 118 swallows it
and re-raises it as `HTTPException(500)`. -/
theorem upload_oversized_rejected_as_500 :
    (upload_video_body ⟨["b.mp4"], []⟩ "a.mp4" (500 * 1024 * 1024 + 1) (.ok [])).1
        = .error (.http 413 "文件过大，最大支持500MB") ∧
    (upload_video ⟨["b.mp4"], []⟩ "a.mp4" (500 * 1024 * 1024 + 1) (.ok [])).1.status
        = 500 ∧
    (upload_video ⟨["b.mp4"], []⟩ "a.mp4" (500 * 1024 * 1024 + 1) (.ok [])).1.status
        ≠ 413 ∧
    (upload_video ⟨["b.mp4"], []⟩ "a.mp4" (500 * 1024 * 1024 + 1) (.ok [])).2
        = ⟨["b.mp4"], []⟩ := by
  exact ⟨rfl, by decide, by decide, by decide⟩

end VedioS
